import Mathlib

/-!
Verification development for the polyphonic voice-allocation and
modulation-scheduling engine in `src/services/AudioEngine.ts`.

The engine is shallowly embedded as pure Lean functions over an explicit
`Engine` state:

* Numeric values (`number` in the source) are modelled as exact rationals
  `ℚ`; the idealised real-number semantics of the source arithmetic is used.
* Oscillator frequencies are represented in an exact logarithmic encoding:
  every frequency the engine ever computes has the form `440 * 2 ^ e` with
  `e : ℚ` (the source builds frequencies only as products of
  `440 * 2 ^ ((n - 69) / 12)`, `2 ^ (tune / 1200)` and the pitch-bend
  multiplier `2 ^ (2 * bend / 12)`).  A component's `freqExp` field stores
  the exponent `e`; since `x ↦ 440 * 2 ^ x` is injective, equality of
  frequencies is exactly equality of the stored exponents.  Likewise the
  engine's `pitchBendMultiplier` is stored as its exponent `pitchBendExp`
  (multiplier `= 1` iff exponent `= 0`).
* An `AudioParam` is modelled as the log of scheduling calls issued to it
  (`cancelScheduledValues`, `setValueAtTime`, `linearRampToValueAtTime`);
  the call `param.setValueAtTime(param.value, t)` that pins the current
  instantaneous value is logged as `pinCurrentValue t`.
* `window.setTimeout` cleanup timers are modelled as a list of pending
  timers on the voice; `clearTimeout` removes them, a fired timer is
  consumed by the `fireTimer` transition.
* An oscillator's scheduled `stop(t)` is recorded in its `stopAt` field;
  a component records (as specification-only ghost data) the oscillator
  descriptor it was built from at note-on time in `builtFrom`.
* Out of scope of the claims and therefore not tracked: the master gain,
  the LFO node sub-graph (connecting/disconnecting the LFO changes no
  voice field modelled here), the noise sample buffers, and the
  `AudioContext` resume/close calls.
-/

attribute [local semireducible] Rat.add Rat.mul Rat.inv Rat.sub Rat.ofScientific

namespace MiniMoog

/-- JS `Math.max` on rationals. -/
def maxQ (a b : ℚ) : ℚ := if a ≤ b then b else a

/-- JS `Math.min` on rationals. -/
def minQ (a b : ℚ) : ℚ := if a ≤ b then a else b

/-- The clamp pattern `Math.max(lo, Math.min(hi, x))` used for filter
cutoff values (`lo = 20`, `hi = sampleRate / 2`). -/
def clampQ (lo hi x : ℚ) : ℚ := maxQ lo (minQ hi x)

/-- Oscillator descriptor (`OscillatorParams` in `types.ts`).  The
`waveform` enum is kept as its string value. -/
structure OscillatorParams where
  id : String
  waveform : String
  octave : Int
  tune : ℚ
  level : ℚ
  enabled : Bool
deriving DecidableEq, Repr

/-- ADSR envelope parameters (`EnvelopeParams` in `types.ts`). -/
structure EnvelopeParams where
  attack : ℚ
  decay : ℚ
  sustain : ℚ
  release : ℚ
deriving DecidableEq, Repr

/-- Filter parameters (`FilterParams` in `types.ts`). -/
structure FilterParams where
  cutoff : ℚ
  resonance : ℚ
  envelopeAmount : ℚ
  keyboardTracking : ℚ
  type : String
deriving DecidableEq, Repr

/-- Noise parameters (`NoiseParams` in `types.ts`). -/
structure NoiseParams where
  type : String
  level : ℚ
  enabled : Bool
deriving DecidableEq, Repr

/-- LFO parameters (`LFOParams` in `types.ts`).  Carried in the snapshot
for completeness; the LFO sub-graph itself is outside the claims. -/
structure LFOParams where
  waveform : String
  rate : ℚ
  pitchAmount : ℚ
  filterAmount : ℚ
  enabled : Bool
deriving DecidableEq, Repr

/-- Full parameter snapshot (`SynthParams` in `types.ts`). -/
structure SynthParams where
  masterVolume : ℚ
  glide : ℚ
  oscillators : List OscillatorParams
  noise : NoiseParams
  filter : FilterParams
  ampEnvelope : EnvelopeParams
  filterEnvelope : EnvelopeParams
  lfo : LFOParams
deriving DecidableEq, Repr

/-- One scheduling call on an `AudioParam` timeline.  `pinCurrentValue t`
models `param.setValueAtTime(param.value, t)` (the release-continuity pin,
whose value argument is the backend's current instantaneous value). -/
inductive AutomationEvent where
  | cancelScheduled (t : ℚ)
  | setValue (v : ℚ) (t : ℚ)
  | pinCurrentValue (t : ℚ)
  | linearRamp (v : ℚ) (t : ℚ)
deriving DecidableEq, Repr

/-- A pending cleanup timer (`window.setTimeout` handle pushed onto
`scheduledStopTimeouts` in `noteOff`).  `delayMs` is the delay the source
passes to `setTimeout`; `note` is the note captured by the callback
closure. -/
structure CleanupTimer where
  delayMs : ℚ
  note : Int
deriving DecidableEq, Repr

/-- A per-note oscillator component (the `{oscNode, gainNode}` pair pushed
onto `voice.oscillators`).  `freqExp` is the oscillator frequency in the
log-encoding described in the header; `stopAt` is the pending scheduled
`oscNode.stop(t)` time, if any.  `builtFrom` is specification-only ghost
data: the descriptor this component was built from at note-on time (the
source keeps no such field; claims C2 refers to it). -/
structure OscillatorComponent where
  waveform : String
  freqExp : ℚ
  gainLevel : ℚ
  stopAt : Option ℚ
  builtFrom : OscillatorParams
deriving DecidableEq, Repr

/-- The per-note noise component (`noiseNode` buffer source). -/
structure NoiseComponent where
  noiseType : String
  stopAt : Option ℚ
deriving DecidableEq, Repr

/-- One voice slot (`PolyVoice` in `AudioEngine.ts`).  `vcaGainEvents` and
`filterFreqEvents` are the scheduling logs of `vcaNode.gain` and
`filterNode.frequency`; `filterType` / `filterQ` model the directly
assigned `filterNode.type` and `filterNode.Q`. -/
structure Voice where
  id : Nat
  note : Option Int
  velocity : ℚ
  isActive : Bool
  isReleasing : Bool
  startTime : ℚ
  oscillators : List OscillatorComponent
  noiseNode : Option NoiseComponent
  noiseGainNode : Option ℚ
  filterType : String
  filterQ : ℚ
  vcaGainEvents : List AutomationEvent
  filterFreqEvents : List AutomationEvent
  scheduledStopTimeouts : List CleanupTimer
deriving DecidableEq, Repr

/-- `MAX_POLYPHONY` from `AudioEngine.ts`. -/
def MAX_POLYPHONY : Nat := 8

/-- Engine state (the mutable fields of class `AudioEngine` that the
claims concern).  `pitchBendExp` is the exponent encoding of
`pitchBendMultiplier` (initially `1.0`, i.e. exponent `0`); `now` is the
backend clock `audioContext.currentTime`; `sampleRate` is
`audioContext.sampleRate`. -/
structure Engine where
  voices : List Voice
  currentParams : SynthParams
  pitchBendExp : ℚ
  now : ℚ
  sampleRate : ℚ
deriving DecidableEq, Repr

/-- Log-encoding of `midiNoteToFrequency`: the source returns
`440 * Math.pow(2, (note - 69) / 12)`; this returns the exponent
`(note - 69) / 12` (the `440` factor is implicit in the encoding). -/
def midiNoteToFrequencyExp (note : Int) : ℚ := ((note : ℚ) - 69) / 12

/-- Private helper `applyEnvelope` (`AudioEngine.ts` lines 190-204),
returned as the list of scheduling calls it issues on `param`. -/
def applyEnvelope (envelope : EnvelopeParams)
    (baseValue peakValue sustainLevelProportion : ℚ) (now : ℚ) :
    List AutomationEvent :=
  [ .cancelScheduled now,
    .setValue baseValue now,
    .linearRamp peakValue (now + maxQ 0.001 envelope.attack),
    .linearRamp (sustainLevelProportion * peakValue)
      (now + maxQ 0.001 envelope.attack + maxQ 0.001 envelope.decay) ]

/-- Private helper `releaseEnvelope` (`AudioEngine.ts` lines 206-213),
returned as the list of scheduling calls it issues on `param`. -/
def releaseEnvelope (releaseTime targetValue now : ℚ) : List AutomationEvent :=
  [ .cancelScheduled now,
    .pinCurrentValue now,
    .linearRamp targetValue (now + maxQ 0.001 releaseTime) ]

/-- The keyboard-tracked base cutoff recomputed from a voice's stored
`note` field, as in `noteOff` (lines 385-390) and the hard-stop branch of
`stopVoice` (lines 455-460).  Both sites guard on the JS-truthiness of
`voice.note` (so `note = 0` and `note = null` both skip tracking) and on
`keyboardTracking > 0`. -/
def trackedBaseCutoff (params : SynthParams) (sampleRate : ℚ)
    (note : Option Int) : ℚ :=
  match note with
  | some m =>
    if m ≠ 0 ∧ 0 < params.filter.keyboardTracking then
      clampQ 20 (sampleRate / 2)
        (params.filter.cutoff +
          ((m : ℚ) - 60) * (params.filter.keyboardTracking * 20))
    else params.filter.cutoff
  | none => params.filter.cutoff

/-- `stopVoice` (`AudioEngine.ts` lines 422-474).  Clears pending cleanup
timers, tears down the oscillator and noise components, on a hard stop
cancels and re-pins the amp and filter automation, clears the identity
fields only when this is not a hard stop (or the note is already null),
and always ends with both flags false. -/
def stopVoice (params : SynthParams) (sampleRate now : ℚ)
    (voice : Voice) (hardStop : Bool) : Voice :=
  let v1 : Voice :=
    { voice with
      scheduledStopTimeouts := [],
      oscillators := [],
      noiseNode := none,
      noiseGainNode := none }
  let v2 : Voice :=
    if hardStop then
      { v1 with
        vcaGainEvents := v1.vcaGainEvents ++
          [ .cancelScheduled now, .setValue 0 now ],
        filterFreqEvents := v1.filterFreqEvents ++
          [ .cancelScheduled now,
            .setValue (trackedBaseCutoff params sampleRate voice.note) now ] }
    else v1
  let v3 : Voice :=
    if !hardStop || (hardStop && voice.note.isNone) then
      { v2 with note := none, velocity := 0, startTime := 0 }
    else v2
  { v3 with isActive := false, isReleasing := false }

/-- First element of a list satisfying `p`, together with its index
(models JS `Array.prototype.find`, keeping the index so the caller can
update the slot in place). -/
def findWithIdx {α : Type} (p : α → Bool) : List α → Option (Nat × α)
  | [] => none
  | a :: l =>
    if p a then some (0, a)
    else (findWithIdx p l).map (fun c => (c.1 + 1, c.2))

/-- Pair every element with its index, starting at `n`. -/
def enumList {α : Type} (n : Nat) : List α → List (Nat × α)
  | [] => []
  | a :: l => (n, a) :: enumList (n + 1) l

/-- First indexed voice of minimal `startTime` in a candidate list: the
head of the JS stable `sort((a, b) => a.startTime - b.startTime)`. -/
def pickOldest : List (Nat × Voice) → Option (Nat × Voice)
  | [] => none
  | c :: cs =>
    match pickOldest cs with
    | none => some c
    | some b => if b.2.startTime < c.2.startTime then some b else some c

/-- The steal pattern of `findVoiceForNoteOn`: filter candidates by `p`,
stable-sort by `startTime`, take the first (source lines 238-244,
247-253, 261-267). -/
def stealOldest (p : Voice → Bool) (voices : List Voice) :
    Option (Nat × Voice) :=
  pickOldest ((enumList 0 voices).filter (fun c => p c.2))

/-- Replace the element at index `i` by `f` of it (in-place mutation of
the found voice object in the source). -/
def listModify {α : Type} (i : Nat) (f : α → α) : List α → List α
  | [] => []
  | a :: l =>
    match i with
    | 0 => f a :: l
    | j + 1 => a :: listModify j f l

/-- The hard stop applied by `findVoiceForNoteOn` to a retriggered or
stolen voice: `this.stopVoice(voice, true)`. -/
def hardStopF (st : Engine) : Voice → Voice :=
  fun v => stopVoice st.currentParams st.sampleRate st.now v true

/-- A voice currently holding `note` while sounding, the retrigger test of
`findVoiceForNoteOn` step 1: `v.note === note && (v.isActive || v.isReleasing)`. -/
def holdsB (note : Int) (v : Voice) : Bool :=
  v.note == some note && (v.isActive || v.isReleasing)

/-- A completely free voice (step 2): `!v.isActive && !v.isReleasing`. -/
def freeB (v : Voice) : Bool := !v.isActive && !v.isReleasing

/-- A voice only in its release phase (steal preference, step 3a). -/
def releasingOnlyB (v : Voice) : Bool := v.isReleasing && !v.isActive

/-- An actively sounding voice (steal, step 3b). -/
def activeOnlyB (v : Voice) : Bool := v.isActive && !v.isReleasing

/-- A non-free voice (fallback steal, step 3c). -/
def nonFreeB (v : Voice) : Bool := v.isActive || v.isReleasing

/-- `findVoiceForNoteOn` (`AudioEngine.ts` lines 215-272).  Returns the
index of the chosen voice (if any) together with the voice list after the
side effect of hard-stopping a retriggered or stolen voice. -/
def findVoiceForNoteOn (st : Engine) (note : Int) :
    Option Nat × List Voice :=
  if st.voices.length = 0 then (none, st.voices)
  else
    match findWithIdx (holdsB note) st.voices with
    | some (i, _) => (some i, listModify i (hardStopF st) st.voices)
    | none =>
      match findWithIdx freeB st.voices with
      | some (i, _) => (some i, st.voices)
      | none =>
        match stealOldest releasingOnlyB st.voices with
        | some (i, _) => (some i, listModify i (hardStopF st) st.voices)
        | none =>
          match stealOldest activeOnlyB st.voices with
          | some (i, _) => (some i, listModify i (hardStopF st) st.voices)
          | none =>
            match stealOldest nonFreeB st.voices with
            | some (i, _) => (some i, listModify i (hardStopF st) st.voices)
            | none => (none, st.voices)

/-- One oscillator component built in the `noteOn` loop (lines 296-316):
`tunedFrequency * pitchBendMultiplier` in the log-encoding. -/
def buildOscComp (p : OscillatorParams) (note : Int) (bendExp : ℚ) :
    OscillatorComponent :=
  { waveform := p.waveform,
    freqExp := midiNoteToFrequencyExp (note + p.octave * 12) +
      p.tune / 1200 + bendExp,
    gainLevel := p.level,
    stopAt := none,
    builtFrom := p }

/-- The oscillator components built by `noteOn`: descriptors that are
disabled or have level exactly 0 are skipped
(`if (!oscParam.enabled || oscParam.level === 0) return;`). -/
def buildOscComps (ps : List OscillatorParams) (note : Int) (bendExp : ℚ) :
    List OscillatorComponent :=
  (ps.filter (fun p => p.enabled && decide (p.level ≠ 0))).map
    (fun p => buildOscComp p note bendExp)

/-- The `noteOn` filter base cutoff (lines 340-345): keyboard tracking is
applied, and the result clamped to `[20, sampleRate / 2]`, only when
`keyboardTracking > 0`. -/
def filterBaseCutoffFor (params : SynthParams) (note : Int)
    (sampleRate : ℚ) : ℚ :=
  if 0 < params.filter.keyboardTracking then
    clampQ 20 (sampleRate / 2)
      (params.filter.cutoff +
        ((note : ℚ) - 60) * (params.filter.keyboardTracking * 20))
  else params.filter.cutoff

/-- The per-voice body of `noteOn` (lines 285-370): populate identity
fields, cancel pending timers, rebuild components, configure the filter,
and schedule the amp and filter envelopes. -/
def populateVoice (params : SynthParams) (sampleRate now bendExp : ℚ)
    (note : Int) (velocity : ℚ) (v0 : Voice) : Voice :=
  let v1 : Voice :=
    { v0 with
      note := some note,
      velocity := velocity,
      isActive := true,
      isReleasing := false,
      startTime := now,
      scheduledStopTimeouts := [],
      oscillators := buildOscComps params.oscillators note bendExp }
  let v2 : Voice :=
    if params.noise.enabled ∧ 0 < params.noise.level then
      { v1 with
        noiseGainNode := some params.noise.level,
        noiseNode := some { noiseType := params.noise.type, stopAt := none } }
    else
      -- keep a stale noise gain node but zero its gain; drop the noise node
      { v1 with
        noiseGainNode := v1.noiseGainNode.map (fun _ => 0),
        noiseNode := none }
  let filterBaseCutoff := filterBaseCutoffFor params note sampleRate
  let ampEnvPeak : ℚ := 1 * (velocity / 127)
  let v3 : Voice :=
    { v2 with
      filterType := params.filter.type,
      filterQ := params.filter.resonance,
      vcaGainEvents := v2.vcaGainEvents ++
        applyEnvelope params.ampEnvelope 0 ampEnvPeak
          params.ampEnvelope.sustain now }
  let filterEnvModAmount := params.filter.envelopeAmount * 5000
  let filterAttackTarget :=
    clampQ 20 (sampleRate / 2) (filterBaseCutoff + filterEnvModAmount)
  let filterSustainTarget :=
    clampQ 20 (sampleRate / 2)
      (filterBaseCutoff + params.filterEnvelope.sustain * filterEnvModAmount)
  { v3 with
    filterFreqEvents := v3.filterFreqEvents ++
      [ .cancelScheduled now,
        .setValue filterBaseCutoff now,
        .linearRamp filterAttackTarget
          (now + maxQ 0.001 params.filterEnvelope.attack),
        .linearRamp filterSustainTarget
          (now + maxQ 0.001 params.filterEnvelope.attack +
            maxQ 0.001 params.filterEnvelope.decay) ] }

/-- Public `noteOn` (lines 274-371).  The fire-and-forget
`audioContext.resume()` has no modelled state. -/
def noteOn (st : Engine) (note : Int) (velocity : ℚ) : Engine :=
  match findVoiceForNoteOn st note with
  | (none, vs) => { st with voices := vs }
  | (some i, vs) =>
    { st with
      voices := listModify i
        (populateVoice st.currentParams st.sampleRate st.now
          st.pitchBendExp note velocity) vs }

/-- The per-voice body of `noteOff` (lines 377-419), applied to every
voice; voices not matching `v.note === note && (v.isActive || v.isReleasing)`
are untouched.  The inner early-return guard of the source
(`!voice.isActive && voice.isReleasing && voice.note !== note`) is kept
although it can never fire for a voice that passed the filter. -/
def noteOffVoice (params : SynthParams) (sampleRate now : ℚ) (note : Int)
    (voice : Voice) : Voice :=
  if holdsB note voice then
    if !voice.isActive && voice.isReleasing && !(voice.note == some note) then
      voice
    else
      let v1 : Voice := { voice with isActive := false, isReleasing := true }
      let v2 : Voice :=
        { v1 with
          vcaGainEvents := v1.vcaGainEvents ++
            releaseEnvelope params.ampEnvelope.release 0 now }
      let filterReleaseTarget := trackedBaseCutoff params sampleRate voice.note
      let v3 : Voice :=
        { v2 with
          filterFreqEvents := v2.filterFreqEvents ++
            releaseEnvelope params.filterEnvelope.release
              filterReleaseTarget now }
      let totalReleaseTime :=
        maxQ params.ampEnvelope.release params.filterEnvelope.release
      let stopTime := now + totalReleaseTime + 0.05
      let v4 : Voice :=
        { v3 with
          oscillators := v3.oscillators.map
            (fun c => { c with stopAt := some stopTime }),
          noiseNode := v3.noiseNode.map
            (fun nc => { nc with stopAt := some stopTime }) }
      { v4 with
        scheduledStopTimeouts := v4.scheduledStopTimeouts ++
          [ { delayMs := (totalReleaseTime + 0.1) * 1000, note := note } ] }
  else voice

/-- Public `noteOff` (lines 373-420). -/
def noteOff (st : Engine) (note : Int) : Engine :=
  { st with
    voices := st.voices.map
      (noteOffVoice st.currentParams st.sampleRate st.now note) }

/-- The body of the cleanup `setTimeout` callback scheduled by `noteOff`
(lines 412-417): soft-stop the voice iff it is still releasing and still
holds the captured note. -/
def cleanupCallback (params : SynthParams) (sampleRate now : ℚ)
    (note : Int) (voice : Voice) : Voice :=
  if voice.isReleasing && voice.note == some note then
    stopVoice params sampleRate now voice false
  else voice

/-- Firing of the earliest pending cleanup timer of voice `i` (a cancelled
timer is no longer pending, so only timers still in
`scheduledStopTimeouts` can fire). -/
def fireTimer (st : Engine) (i : Nat) : Engine :=
  match st.voices[i]? with
  | none => st
  | some v =>
    match v.scheduledStopTimeouts with
    | [] => st
    | t :: ts =>
      { st with
        voices := listModify i
          (fun w =>
            cleanupCallback st.currentParams st.sampleRate st.now t.note
              { w with scheduledStopTimeouts := ts }) st.voices }

/-- The string-concatenation descriptor lookup of `setPitchBend`
(line 484): `find(p => p.id === oscComp.oscNode.type + voice.note + index)`,
falling back to the raw index `this.currentParams.oscillators[index]`. -/
def resolveOscParam (params : SynthParams) (noteValue : Int)
    (compWaveform : String) (index : Nat) : Option OscillatorParams :=
  match params.oscillators.find?
      (fun p => p.id == compWaveform ++ toString noteValue ++ toString index) with
  | some p => some p
  | none => params.oscillators[index]?

/-- Map with the element index (the `forEach((oscComp, index) => ...)`
loop of `setPitchBend`). -/
def mapIdx {α : Type} (f : Nat → α → α) : Nat → List α → List α
  | _, [] => []
  | n, a :: l => f n a :: mapIdx f (n + 1) l

/-- The retune applied by `setPitchBend` to one oscillator component at
position `index` of a voice sounding `noteValue` (lines 482-493): look up
a descriptor (string-concatenation id match, index fallback) and, if a
descriptor was resolved and it is enabled, ramp to the retuned frequency
computed from the resolved descriptor (over 10 ms, modelled as the
settled target); otherwise leave the component untouched. -/
def bendComp (params : SynthParams) (newExp : ℚ) (noteValue : Int)
    (index : Nat) (comp : OscillatorComponent) : OscillatorComponent :=
  match resolveOscParam params noteValue comp.waveform index with
  | some oscParam =>
    if oscParam.enabled then
      { comp with
        freqExp :=
          midiNoteToFrequencyExp (noteValue + oscParam.octave * 12) +
            oscParam.tune / 1200 + newExp }
    else comp
  | none => comp

/-- The per-voice body of `setPitchBend` (lines 480-495): only voices with
`(isActive || isReleasing) && note !== null` are touched. -/
def bendVoice (params : SynthParams) (newExp : ℚ) (voice : Voice) : Voice :=
  if voice.isActive || voice.isReleasing then
    match voice.note with
    | none => voice
    | some noteValue =>
      { voice with
        oscillators := mapIdx (bendComp params newExp noteValue) 0
          voice.oscillators }
  else voice

/-- Public `setPitchBend` (lines 476-496).  The new multiplier exponent is
`(bendValue * 2) / 12`. -/
def setPitchBend (st : Engine) (bendValue : ℚ) : Engine :=
  let newExp := bendValue * 2 / 12
  { st with
    pitchBendExp := newExp,
    voices := st.voices.map (bendVoice st.currentParams newExp) }

/-- Public `dispose` (lines 548-555): hard-stop every voice.  The LFO
teardown, master-gain disconnect and context close have no modelled
state. -/
def dispose (st : Engine) : Engine :=
  { st with
    voices := st.voices.map
      (fun v => stopVoice st.currentParams st.sampleRate st.now v true) }

/-- A voice slot as built by the constructor (lines 53-73). -/
def initVoice (i : Nat) : Voice :=
  { id := i,
    note := none,
    velocity := 0,
    isActive := false,
    isReleasing := false,
    startTime := 0,
    oscillators := [],
    noiseNode := none,
    noiseGainNode := none,
    filterType := "lowpass",
    filterQ := 1,
    vcaGainEvents := [],
    filterFreqEvents := [],
    scheduledStopTimeouts := [] }

/-- Engine construction (lines 44-76): `MAX_POLYPHONY` fresh voices, unit
pitch-bend multiplier (exponent 0). -/
def mkEngine (params : SynthParams) (sampleRate : ℚ) : Engine :=
  { voices := (List.range MAX_POLYPHONY).map initVoice,
    currentParams := params,
    pitchBendExp := 0,
    now := 0,
    sampleRate := sampleRate }

/-- External stimuli driving the engine state machine: the public note
calls, the firing of a due cleanup timer, a pitch-bend event, and the
passage of backend-clock time between calls. -/
inductive Event where
  | noteOnEv (note : Int) (velocity : ℚ)
  | noteOffEv (note : Int)
  | fireTimerEv (i : Nat)
  | bendEv (value : ℚ)
  | advanceEv (dt : ℚ)
deriving DecidableEq, Repr

/-- One step of the engine state machine. -/
def step (st : Engine) : Event → Engine
  | .noteOnEv n vel => noteOn st n vel
  | .noteOffEv n => noteOff st n
  | .fireTimerEv i => fireTimer st i
  | .bendEv b => setPitchBend st b
  | .advanceEv dt => { st with now := st.now + dt }

/-- Run a sequence of events from a freshly constructed engine. -/
def run (params : SynthParams) (sampleRate : ℚ) (evs : List Event) : Engine :=
  evs.foldl step (mkEngine params sampleRate)

/-- Number of sounding voices currently assigned to `note`. -/
def soundingCount (st : Engine) (note : Int) : Nat :=
  st.voices.countP (holdsB note)

/-! ### Basic lemmas about the list helpers -/

theorem maxQ_pos (a b : ℚ) (ha : 0 < a) (hb : 0 < b) : 0 < maxQ a b := by
  unfold maxQ; split <;> assumption

theorem findWithIdx_eq_some {α : Type} {p : α → Bool} {l : List α}
    {i : Nat} {a : α} (h : findWithIdx p l = some (i, a)) :
    l[i]? = some a ∧ p a = true := by
  induction l generalizing i with
  | nil => simp [findWithIdx] at h
  | cons b l ih =>
    by_cases hb : p b = true
    · have hmain : findWithIdx p (b :: l) = some (0, b) := by
        simp [findWithIdx, hb]
      rw [h] at hmain
      simp only [Option.some.injEq, Prod.mk.injEq] at hmain
      obtain ⟨rfl, rfl⟩ := hmain
      exact ⟨by simp, hb⟩
    · cases hf : findWithIdx p l with
      | none => simp [findWithIdx, hb, hf] at h
      | some c =>
        obtain ⟨j, a0⟩ := c
        have hmain : findWithIdx p (b :: l) = some (j + 1, a0) := by
          simp [findWithIdx, hb, hf]
        rw [h] at hmain
        simp only [Option.some.injEq, Prod.mk.injEq] at hmain
        obtain ⟨rfl, rfl⟩ := hmain
        obtain ⟨hg, hp⟩ := ih hf
        exact ⟨by simpa using hg, hp⟩

theorem findWithIdx_eq_none {α : Type} {p : α → Bool} {l : List α}
    (h : findWithIdx p l = none) : ∀ a ∈ l, p a = false := by
  induction l with
  | nil => intro a ha; simp at ha
  | cons b l ih =>
    intro a ha
    by_cases hb : p b = true
    · simp [findWithIdx, hb] at h
    · cases hf : findWithIdx p l with
      | some c => simp [findWithIdx, hb, hf] at h
      | none =>
        rcases List.mem_cons.mp ha with rfl | hmem
        · simpa using hb
        · exact ih hf a hmem

theorem findWithIdx_isSome_of_mem {α : Type} {p : α → Bool} {l : List α}
    {a : α} (ha : a ∈ l) (hp : p a = true) :
    ∃ c, findWithIdx p l = some c := by
  cases h : findWithIdx p l with
  | some c => exact ⟨c, rfl⟩
  | none => exact absurd (findWithIdx_eq_none h a ha) (by simp [hp])

theorem findWithIdx_eq_of_unique {α : Type} {p : α → Bool} {l : List α}
    {i : Nat} {a : α} (hg : l[i]? = some a) (hp : p a = true)
    (hu : ∀ j b, l[j]? = some b → p b = true → j = i) :
    findWithIdx p l = some (i, a) := by
  induction l generalizing i with
  | nil => simp at hg
  | cons c l ih =>
    by_cases hc : p c = true
    · have h0 : 0 = i := hu 0 c (by simp) hc
      subst h0
      simp only [List.getElem?_cons_zero, Option.some.injEq] at hg
      subst hg
      simp [findWithIdx, hc]
    · cases i with
      | zero =>
        simp only [List.getElem?_cons_zero, Option.some.injEq] at hg
        subst hg
        exact absurd hp hc
      | succ i =>
        simp only [List.getElem?_cons_succ] at hg
        have hu' : ∀ j b, l[j]? = some b → p b = true → j = i := by
          intro j b hj hb
          have := hu (j + 1) b (by simpa using hj) hb
          omega
        simp [findWithIdx, hc, ih hg hu']

theorem enumList_mem {α : Type} {n : Nat} {l : List α} {i : Nat} {a : α} :
    (i, a) ∈ enumList n l ↔ ∃ k, i = n + k ∧ l[k]? = some a := by
  induction l generalizing n with
  | nil => simp [enumList]
  | cons b l ih =>
    simp only [enumList, List.mem_cons, Prod.mk.injEq, ih]
    constructor
    · rintro (⟨rfl, rfl⟩ | ⟨k, rfl, hk⟩)
      · exact ⟨0, by simp⟩
      · exact ⟨k + 1, by omega, by simpa using hk⟩
    · rintro ⟨k, rfl, hk⟩
      cases k with
      | zero =>
        simp only [List.getElem?_cons_zero, Option.some.injEq] at hk
        exact Or.inl ⟨by omega, hk.symm⟩
      | succ k =>
        simp only [List.getElem?_cons_succ] at hk
        exact Or.inr ⟨k, by omega, hk⟩

theorem pickOldest_eq_none {cs : List (Nat × Voice)} :
    pickOldest cs = none ↔ cs = [] := by
  cases cs with
  | nil => simp [pickOldest]
  | cons d ds =>
    simp only [List.cons_ne_nil, iff_false]
    cases hds : pickOldest ds with
    | none => simp [pickOldest, hds]
    | some b => simp only [pickOldest, hds]; split <;> simp

theorem pickOldest_mem {cs : List (Nat × Voice)} :
    ∀ {c : Nat × Voice}, pickOldest cs = some c → c ∈ cs := by
  induction cs with
  | nil => intro c h; simp [pickOldest] at h
  | cons d ds ih =>
    intro c h
    cases hds : pickOldest ds with
    | none =>
      simp only [pickOldest, hds, Option.some.injEq] at h
      subst h
      exact List.mem_cons_self _ _
    | some b =>
      simp only [pickOldest, hds] at h
      by_cases hlt : b.2.startTime < d.2.startTime
      · rw [if_pos hlt] at h
        simp only [Option.some.injEq] at h
        subst h
        exact List.mem_cons_of_mem _ (ih hds)
      · rw [if_neg hlt] at h
        simp only [Option.some.injEq] at h
        subst h
        exact List.mem_cons_self _ _

theorem pickOldest_min {cs : List (Nat × Voice)} :
    ∀ {c : Nat × Voice}, pickOldest cs = some c →
      ∀ b ∈ cs, c.2.startTime ≤ b.2.startTime := by
  induction cs with
  | nil => intro c h; simp [pickOldest] at h
  | cons d ds ih =>
    intro c h b hb
    cases hds : pickOldest ds with
    | none =>
      simp only [pickOldest, hds, Option.some.injEq] at h
      subst h
      rcases List.mem_cons.mp hb with rfl | hmem
      · exact le_refl _
      · exact absurd (pickOldest_eq_none.mp hds ▸ hmem) (by simp)
    | some q =>
      simp only [pickOldest, hds] at h
      have hqmin := ih hds
      by_cases hlt : q.2.startTime < d.2.startTime
      · rw [if_pos hlt] at h
        simp only [Option.some.injEq] at h
        subst h
        rcases List.mem_cons.mp hb with rfl | hmem
        · exact le_of_lt hlt
        · exact hqmin b hmem
      · rw [if_neg hlt] at h
        simp only [Option.some.injEq] at h
        subst h
        rcases List.mem_cons.mp hb with rfl | hmem
        · exact le_refl _
        · exact le_trans (not_lt.mp hlt) (hqmin b hmem)

theorem stealOldest_eq_some {p : Voice → Bool} {l : List Voice}
    {i : Nat} {v : Voice} (h : stealOldest p l = some (i, v)) :
    l[i]? = some v ∧ p v = true ∧
      ∀ (j : Nat) (w : Voice), l[j]? = some w → p w = true →
        v.startTime ≤ w.startTime := by
  have hmem := pickOldest_mem h
  have hmin := pickOldest_min h
  rw [List.mem_filter] at hmem
  obtain ⟨henum, hp⟩ := hmem
  obtain ⟨k, hk, hg⟩ := enumList_mem.mp henum
  have hik : i = k := by omega
  subst hik
  refine ⟨hg, by simpa using hp, ?_⟩
  intro j w hj hw
  have hjmem : (j, w) ∈ (enumList 0 l).filter (fun c => p c.2) := by
    rw [List.mem_filter]
    exact ⟨enumList_mem.mpr ⟨j, by omega, hj⟩, by simpa using hw⟩
  exact hmin (j, w) hjmem

theorem stealOldest_eq_none {p : Voice → Bool} {l : List Voice}
    (h : stealOldest p l = none) : ∀ v ∈ l, p v = false := by
  intro v hv
  rw [stealOldest, pickOldest_eq_none] at h
  obtain ⟨k, hk⟩ := List.mem_iff_getElem?.mp hv
  by_contra hpv
  have hmem : (k, v) ∈ (enumList 0 l).filter (fun c => p c.2) := by
    rw [List.mem_filter]
    refine ⟨enumList_mem.mpr ⟨k, by omega, hk⟩, by simpa using hpv⟩
  rw [h] at hmem
  simp at hmem

theorem stealOldest_isSome_of_mem {p : Voice → Bool} {l : List Voice}
    {v : Voice} (hv : v ∈ l) (hp : p v = true) :
    ∃ c, stealOldest p l = some c := by
  cases h : stealOldest p l with
  | some c => exact ⟨c, rfl⟩
  | none => exact absurd (stealOldest_eq_none h v hv) (by simp [hp])

theorem listModify_length {α : Type} (i : Nat) (f : α → α) (l : List α) :
    (listModify i f l).length = l.length := by
  induction l generalizing i with
  | nil => simp [listModify]
  | cons a l ih =>
    cases i with
    | zero => simp [listModify]
    | succ j => simp [listModify, ih]

theorem listModify_getElem_self {α : Type} (i : Nat) (f : α → α)
    (l : List α) : (listModify i f l)[i]? = (l[i]?).map f := by
  induction l generalizing i with
  | nil => simp [listModify]
  | cons a l ih =>
    cases i with
    | zero => simp [listModify]
    | succ j => simpa [listModify] using ih j

theorem listModify_getElem_ne {α : Type} {i j : Nat} (f : α → α)
    (l : List α) (h : j ≠ i) : (listModify i f l)[j]? = l[j]? := by
  induction l generalizing i j with
  | nil => simp [listModify]
  | cons a l ih =>
    cases i with
    | zero =>
      cases j with
      | zero => omega
      | succ k => simp [listModify]
    | succ i =>
      cases j with
      | zero => simp [listModify]
      | succ k =>
        simp only [listModify, List.getElem?_cons_succ]
        exact ih (by omega)

theorem getElem?_mem {α : Type} {l : List α} {i : Nat} {a : α}
    (h : l[i]? = some a) : a ∈ l :=
  List.mem_iff_getElem?.mpr ⟨i, h⟩

/-! ### Field computations of the voice operations -/

theorem stopVoice_reset (params : SynthParams) (sampleRate now : ℚ)
    (voice : Voice) (hardStop : Bool) :
    (stopVoice params sampleRate now voice hardStop).isActive = false ∧
    (stopVoice params sampleRate now voice hardStop).isReleasing = false ∧
    (stopVoice params sampleRate now voice hardStop).oscillators = [] ∧
    (stopVoice params sampleRate now voice hardStop).noiseNode = none ∧
    (stopVoice params sampleRate now voice hardStop).noiseGainNode = none ∧
    (stopVoice params sampleRate now voice hardStop).scheduledStopTimeouts
      = [] := by
  unfold stopVoice
  dsimp only
  split <;> split <;> exact ⟨rfl, rfl, rfl, rfl, rfl, rfl⟩

theorem holdsB_stopVoice (m : Int) (params : SynthParams)
    (sampleRate now : ℚ) (voice : Voice) (hardStop : Bool) :
    holdsB m (stopVoice params sampleRate now voice hardStop) = false := by
  obtain ⟨h1, h2, -⟩ := stopVoice_reset params sampleRate now voice hardStop
  unfold holdsB
  rw [h1, h2]
  simp

theorem stopVoice_soft_clears (params : SynthParams) (sampleRate now : ℚ)
    (voice : Voice) :
    (stopVoice params sampleRate now voice false).note = none ∧
    (stopVoice params sampleRate now voice false).velocity = 0 ∧
    (stopVoice params sampleRate now voice false).startTime = 0 := by
  exact ⟨rfl, rfl, rfl⟩

theorem populateVoice_fields (params : SynthParams)
    (sampleRate now bendExp : ℚ) (note : Int) (velocity : ℚ) (v0 : Voice) :
    (populateVoice params sampleRate now bendExp note velocity v0).note
        = some note ∧
    (populateVoice params sampleRate now bendExp note velocity v0).velocity
        = velocity ∧
    (populateVoice params sampleRate now bendExp note velocity v0).isActive
        = true ∧
    (populateVoice params sampleRate now bendExp note velocity v0).isReleasing
        = false ∧
    (populateVoice params sampleRate now bendExp note velocity v0).startTime
        = now ∧
    (populateVoice params sampleRate now bendExp note
        velocity v0).scheduledStopTimeouts = [] ∧
    (populateVoice params sampleRate now bendExp note velocity v0).oscillators
        = buildOscComps params.oscillators note bendExp ∧
    (populateVoice params sampleRate now bendExp note velocity v0).vcaGainEvents
        = v0.vcaGainEvents ++
          applyEnvelope params.ampEnvelope 0 (1 * (velocity / 127))
            params.ampEnvelope.sustain now ∧
    (populateVoice params sampleRate now bendExp note
        velocity v0).filterFreqEvents
      = v0.filterFreqEvents ++
        [ .cancelScheduled now,
          .setValue (filterBaseCutoffFor params note sampleRate) now,
          .linearRamp
            (clampQ 20 (sampleRate / 2)
              (filterBaseCutoffFor params note sampleRate +
                params.filter.envelopeAmount * 5000))
            (now + maxQ 0.001 params.filterEnvelope.attack),
          .linearRamp
            (clampQ 20 (sampleRate / 2)
              (filterBaseCutoffFor params note sampleRate +
                params.filterEnvelope.sustain *
                  (params.filter.envelopeAmount * 5000)))
            (now + maxQ 0.001 params.filterEnvelope.attack +
              maxQ 0.001 params.filterEnvelope.decay) ] := by
  unfold populateVoice
  dsimp only
  split <;> simp

theorem holdsB_populateVoice (m : Int) (params : SynthParams)
    (sampleRate now bendExp : ℚ) (note : Int) (velocity : ℚ) (v0 : Voice) :
    holdsB m (populateVoice params sampleRate now bendExp note velocity v0)
      = true ↔ m = note := by
  obtain ⟨h1, -, h3, h4, -⟩ :=
    populateVoice_fields params sampleRate now bendExp note velocity v0
  unfold holdsB
  rw [h1, h3, h4]
  simp only [Bool.or_false, Bool.and_true, beq_iff_eq, Option.some.injEq]
  exact ⟨fun h => h.symm, fun h => h.symm⟩

theorem noteOffVoice_not_matching (params : SynthParams)
    (sampleRate now : ℚ) (note : Int) (voice : Voice)
    (h : holdsB note voice = false) :
    noteOffVoice params sampleRate now note voice = voice := by
  unfold noteOffVoice
  rw [h]
  simp

theorem noteOffVoice_matching (params : SynthParams) (sampleRate now : ℚ)
    (note : Int) (voice : Voice) (h : holdsB note voice = true) :
    noteOffVoice params sampleRate now note voice =
      { voice with
        isActive := false,
        isReleasing := true,
        vcaGainEvents := voice.vcaGainEvents ++
          releaseEnvelope params.ampEnvelope.release 0 now,
        filterFreqEvents := voice.filterFreqEvents ++
          releaseEnvelope params.filterEnvelope.release
            (trackedBaseCutoff params sampleRate voice.note) now,
        oscillators := voice.oscillators.map
          (fun c => { c with stopAt := some (now +
            maxQ params.ampEnvelope.release params.filterEnvelope.release
              + 0.05) }),
        noiseNode := voice.noiseNode.map
          (fun nc => { nc with stopAt := some (now +
            maxQ params.ampEnvelope.release params.filterEnvelope.release
              + 0.05) }),
        scheduledStopTimeouts := voice.scheduledStopTimeouts ++
          [ { delayMs := (maxQ params.ampEnvelope.release
                params.filterEnvelope.release + 0.1) * 1000,
              note := note } ] } := by
  have hnote : (voice.note == some note) = true := by
    unfold holdsB at h
    rw [Bool.and_eq_true] at h
    exact h.1
  unfold noteOffVoice
  rw [h]
  simp [hnote]

theorem holdsB_noteOffVoice (m : Int) (params : SynthParams)
    (sampleRate now : ℚ) (note : Int) (voice : Voice) :
    holdsB m (noteOffVoice params sampleRate now note voice)
      = holdsB m voice := by
  by_cases h : holdsB note voice = true
  · rw [noteOffVoice_matching params sampleRate now note voice h]
    have hsound : (voice.isActive || voice.isReleasing) = true := by
      unfold holdsB at h
      rw [Bool.and_eq_true] at h
      exact h.2
    unfold holdsB
    simp [hsound]
  · rw [noteOffVoice_not_matching params sampleRate now note voice
      (Bool.not_eq_true _ ▸ h)]

theorem noteOffVoice_free (params : SynthParams) (sampleRate now : ℚ)
    (note : Int) (voice : Voice) (hact : voice.isActive = false)
    (hrel : voice.isReleasing = false) :
    noteOffVoice params sampleRate now note voice = voice := by
  apply noteOffVoice_not_matching
  unfold holdsB
  rw [hact, hrel]
  simp

theorem holdsB_cleanupCallback (m : Int) (params : SynthParams)
    (sampleRate now : ℚ) (note : Int) (voice : Voice)
    (h : holdsB m (cleanupCallback params sampleRate now note voice) = true) :
    holdsB m voice = true := by
  unfold cleanupCallback at h
  split at h
  · rw [holdsB_stopVoice] at h
    exact absurd h (by simp)
  · exact h

theorem bendVoice_fields (params : SynthParams) (newExp : ℚ)
    (voice : Voice) :
    (bendVoice params newExp voice).note = voice.note ∧
    (bendVoice params newExp voice).isActive = voice.isActive ∧
    (bendVoice params newExp voice).isReleasing = voice.isReleasing ∧
    (bendVoice params newExp voice).scheduledStopTimeouts
      = voice.scheduledStopTimeouts := by
  unfold bendVoice
  split
  · split <;> simp
  · simp

theorem holdsB_bendVoice (m : Int) (params : SynthParams) (newExp : ℚ)
    (voice : Voice) :
    holdsB m (bendVoice params newExp voice) = holdsB m voice := by
  obtain ⟨h1, h2, h3, -⟩ := bendVoice_fields params newExp voice
  unfold holdsB
  rw [h1, h2, h3]

theorem bendVoice_free (params : SynthParams) (newExp : ℚ) (voice : Voice)
    (hact : voice.isActive = false) (hrel : voice.isReleasing = false) :
    bendVoice params newExp voice = voice := by
  unfold bendVoice
  rw [hact, hrel]
  simp

/-! ### Characterisation of voice allocation -/

theorem findVoiceForNoteOn_none {st : Engine} {n : Int} {vs : List Voice}
    (h : findVoiceForNoteOn st n = (none, vs)) : vs = st.voices := by
  unfold findVoiceForNoteOn at h
  repeat' split at h
  all_goals simp only [Prod.mk.injEq] at h
  all_goals first
    | exact h.2.symm
    | exact absurd h.1 (by simp)

theorem findVoiceForNoteOn_some_cases {st : Engine} {n : Int} {i : Nat}
    {vs : List Voice} (h : findVoiceForNoteOn st n = (some i, vs)) :
    (∃ v, st.voices[i]? = some v ∧ holdsB n v = true ∧
        vs = listModify i (hardStopF st) st.voices) ∨
    ((∀ v ∈ st.voices, holdsB n v = false) ∧
      ∃ v, st.voices[i]? = some v ∧ freeB v = true ∧ vs = st.voices) ∨
    ((∀ v ∈ st.voices, holdsB n v = false) ∧
      ∃ v, st.voices[i]? = some v ∧
        vs = listModify i (hardStopF st) st.voices) := by
  by_cases hlen : st.voices.length = 0
  · unfold findVoiceForNoteOn at h
    rw [if_pos hlen] at h
    simp at h
  · cases hf1 : findWithIdx (holdsB n) st.voices with
    | some c =>
      obtain ⟨j, w⟩ := c
      have hres : findVoiceForNoteOn st n
          = (some j, listModify j (hardStopF st) st.voices) := by
        unfold findVoiceForNoteOn
        rw [if_neg hlen, hf1]
      rw [h] at hres
      simp only [Prod.mk.injEq, Option.some.injEq] at hres
      obtain ⟨rfl, hvs⟩ := hres
      obtain ⟨hg, hp⟩ := findWithIdx_eq_some hf1
      exact Or.inl ⟨w, hg, hp, hvs⟩
    | none =>
      have hnh : ∀ v ∈ st.voices, holdsB n v = false := findWithIdx_eq_none hf1
      cases hf2 : findWithIdx freeB st.voices with
      | some c =>
        obtain ⟨j, w⟩ := c
        have hres : findVoiceForNoteOn st n = (some j, st.voices) := by
          unfold findVoiceForNoteOn
          rw [if_neg hlen, hf1, hf2]
        rw [h] at hres
        simp only [Prod.mk.injEq, Option.some.injEq] at hres
        obtain ⟨rfl, hvs⟩ := hres
        obtain ⟨hg, hp⟩ := findWithIdx_eq_some hf2
        exact Or.inr (Or.inl ⟨hnh, w, hg, hp, hvs⟩)
      | none =>
        cases hs3 : stealOldest releasingOnlyB st.voices with
        | some c =>
          obtain ⟨j, w⟩ := c
          have hres : findVoiceForNoteOn st n
              = (some j, listModify j (hardStopF st) st.voices) := by
            unfold findVoiceForNoteOn
            rw [if_neg hlen, hf1, hf2, hs3]
          rw [h] at hres
          simp only [Prod.mk.injEq, Option.some.injEq] at hres
          obtain ⟨rfl, hvs⟩ := hres
          obtain ⟨hg, -, -⟩ := stealOldest_eq_some hs3
          exact Or.inr (Or.inr ⟨hnh, w, hg, hvs⟩)
        | none =>
          cases hs4 : stealOldest activeOnlyB st.voices with
          | some c =>
            obtain ⟨j, w⟩ := c
            have hres : findVoiceForNoteOn st n
                = (some j, listModify j (hardStopF st) st.voices) := by
              unfold findVoiceForNoteOn
              rw [if_neg hlen, hf1, hf2, hs3, hs4]
            rw [h] at hres
            simp only [Prod.mk.injEq, Option.some.injEq] at hres
            obtain ⟨rfl, hvs⟩ := hres
            obtain ⟨hg, -, -⟩ := stealOldest_eq_some hs4
            exact Or.inr (Or.inr ⟨hnh, w, hg, hvs⟩)
          | none =>
            cases hs5 : stealOldest nonFreeB st.voices with
            | some c =>
              obtain ⟨j, w⟩ := c
              have hres : findVoiceForNoteOn st n
                  = (some j, listModify j (hardStopF st) st.voices) := by
                unfold findVoiceForNoteOn
                rw [if_neg hlen, hf1, hf2, hs3, hs4, hs5]
              rw [h] at hres
              simp only [Prod.mk.injEq, Option.some.injEq] at hres
              obtain ⟨rfl, hvs⟩ := hres
              obtain ⟨hg, -, -⟩ := stealOldest_eq_some hs5
              exact Or.inr (Or.inr ⟨hnh, w, hg, hvs⟩)
            | none =>
              have hres : findVoiceForNoteOn st n = (none, st.voices) := by
                unfold findVoiceForNoteOn
                rw [if_neg hlen, hf1, hf2, hs3, hs4, hs5]
              rw [h] at hres
              simp at hres

/-! ### Reachable-state invariants -/

/-- At most one voice is assigned to a given sounding note, stated as
uniqueness of the holding index. -/
def SoundingUnique (l : List Voice) : Prop :=
  ∀ (n : Int) (i j : Nat) (vi vj : Voice), l[i]? = some vi →
    l[j]? = some vj → holdsB n vi = true → holdsB n vj = true → i = j

/-- A free voice (neither active nor releasing) carries no oscillator
components, no noise components and no pending cleanup timers. -/
def FreeReset (l : List Voice) : Prop :=
  ∀ (k : Nat) (v : Voice), l[k]? = some v → v.isActive = false →
    v.isReleasing = false →
    v.oscillators = [] ∧ v.noiseNode = none ∧ v.noiseGainNode = none ∧
      v.scheduledStopTimeouts = []

/-- The combined invariant maintained by every engine transition. -/
def EngineInv (st : Engine) : Prop :=
  SoundingUnique st.voices ∧ FreeReset st.voices

theorem holdsB_initVoice (n : Int) (k : Nat) :
    holdsB n (initVoice k) = false := by
  simp [holdsB, initVoice]

theorem mkEngine_inv (params : SynthParams) (sampleRate : ℚ) :
    EngineInv (mkEngine params sampleRate) := by
  constructor
  · intro n i j vi vj hgi hgj hhi hhj
    have hmem := getElem?_mem hgi
    obtain ⟨k, -, hk⟩ := List.mem_map.mp hmem
    rw [← hk, holdsB_initVoice] at hhi
    exact absurd hhi (by simp)
  · intro k v hgk hact hrel
    have hmem := getElem?_mem hgk
    obtain ⟨j, -, hj⟩ := List.mem_map.mp hmem
    rw [← hj]
    exact ⟨rfl, rfl, rfl, rfl⟩

theorem listModify_getElem_cases {α : Type} {i k : Nat} {f : α → α}
    {l : List α} {v : α} (h : (listModify i f l)[k]? = some v) :
    ∃ w, l[k]? = some w ∧ ((k ≠ i ∧ v = w) ∨ (k = i ∧ v = f w)) := by
  by_cases hk : k = i
  · subst hk
    rw [listModify_getElem_self] at h
    cases hw : l[k]? with
    | none => rw [hw] at h; simp at h
    | some w =>
      rw [hw] at h
      simp only [Option.map_some'] at h
      exact ⟨w, rfl, Or.inr ⟨rfl, (Option.some.inj h).symm⟩⟩
  · rw [listModify_getElem_ne f l hk] at h
    exact ⟨v, h, Or.inl ⟨hk, rfl⟩⟩

theorem soundingUnique_modify {l : List Voice} {i : Nat} {f : Voice → Voice}
    (hU : SoundingUnique l)
    (hf : ∀ (w : Voice) (m : Int), l[i]? = some w →
      holdsB m (f w) = true → holdsB m w = true) :
    SoundingUnique (listModify i f l) := by
  intro m i1 j1 v1 v2 hg1 hg2 hh1 hh2
  obtain ⟨w1, hw1, hc1⟩ := listModify_getElem_cases hg1
  obtain ⟨w2, hw2, hc2⟩ := listModify_getElem_cases hg2
  have hh1w : holdsB m w1 = true := by
    rcases hc1 with ⟨-, rfl⟩ | ⟨hk, rfl⟩
    · exact hh1
    · exact hf w1 m (hk ▸ hw1) hh1
  have hh2w : holdsB m w2 = true := by
    rcases hc2 with ⟨-, rfl⟩ | ⟨hk, rfl⟩
    · exact hh2
    · exact hf w2 m (hk ▸ hw2) hh2
  exact hU m i1 j1 w1 w2 hw1 hw2 hh1w hh2w

theorem soundingUnique_map {l : List Voice} {f : Voice → Voice}
    (hU : SoundingUnique l)
    (hf : ∀ (w : Voice) (m : Int), holdsB m (f w) = true →
      holdsB m w = true) :
    SoundingUnique (l.map f) := by
  intro m i j vi vj hgi hgj hhi hhj
  rw [List.getElem?_map] at hgi hgj
  cases hwi : l[i]? with
  | none => rw [hwi] at hgi; simp at hgi
  | some wi =>
    cases hwj : l[j]? with
    | none => rw [hwj] at hgj; simp at hgj
    | some wj =>
      rw [hwi] at hgi
      rw [hwj] at hgj
      simp only [Option.map_some', Option.some.injEq] at hgi hgj
      subst hgi; subst hgj
      exact hU m i j wi wj hwi hwj (hf wi m hhi) (hf wj m hhj)

theorem freeReset_map {l : List Voice} {f : Voice → Voice}
    (hF : FreeReset l)
    (hf : ∀ w : Voice, (f w).isActive = false → (f w).isReleasing = false →
      f w = w) :
    FreeReset (l.map f) := by
  intro k v hgk hact hrel
  rw [List.getElem?_map] at hgk
  cases hw : l[k]? with
  | none => rw [hw] at hgk; simp at hgk
  | some w =>
    rw [hw] at hgk
    simp only [Option.map_some', Option.some.injEq] at hgk
    subst hgk
    have heq := hf w hact hrel
    rw [heq] at hact hrel ⊢
    exact hF k w hw hact hrel

theorem freeReset_modify {l : List Voice} {i : Nat} {f : Voice → Voice}
    (hF : FreeReset l)
    (hf : ∀ w : Voice, l[i]? = some w → (f w).isActive = false →
      (f w).isReleasing = false →
      (f w).oscillators = [] ∧ (f w).noiseNode = none ∧
        (f w).noiseGainNode = none ∧ (f w).scheduledStopTimeouts = []) :
    FreeReset (listModify i f l) := by
  intro k v hgk hact hrel
  obtain ⟨w, hw, hc⟩ := listModify_getElem_cases hgk
  rcases hc with ⟨hne, heq⟩ | ⟨hk, heq⟩
  · subst heq
    exact hF k v hw hact hrel
  · subst heq
    exact hf w (hk ▸ hw) hact hrel

theorem soundingUnique_after_populate {l : List Voice} {i : Nat}
    (params : SynthParams) (sr now bend : ℚ) (n : Int) (vel : ℚ)
    (hU : SoundingUnique l)
    (hnoh : ∀ (j : Nat) (w : Voice), j ≠ i → l[j]? = some w →
      holdsB n w = false) :
    SoundingUnique (listModify i (populateVoice params sr now bend n vel) l) := by
  intro m i1 j1 v1 v2 hg1 hg2 hh1 hh2
  obtain ⟨w1, hw1, hc1⟩ := listModify_getElem_cases hg1
  obtain ⟨w2, hw2, hc2⟩ := listModify_getElem_cases hg2
  rcases hc1 with ⟨hne1, heq1⟩ | ⟨hk1, heq1⟩
  · subst heq1
    rcases hc2 with ⟨hne2, heq2⟩ | ⟨hk2, heq2⟩
    · subst heq2
      exact hU m i1 j1 v1 v2 hw1 hw2 hh1 hh2
    · subst heq2
      have hmn : m = n :=
        (holdsB_populateVoice m params sr now bend n vel w2).mp hh2
      subst hmn
      rw [hnoh i1 v1 hne1 hw1] at hh1
      simp at hh1
  · subst heq1
    rcases hc2 with ⟨hne2, heq2⟩ | ⟨hk2, heq2⟩
    · subst heq2
      have hmn : m = n :=
        (holdsB_populateVoice m params sr now bend n vel w1).mp hh1
      subst hmn
      rw [hnoh j1 v2 hne2 hw2] at hh2
      simp at hh2
    · subst heq2
      rw [hk1, hk2]

theorem freeReset_populate {l : List Voice} {i : Nat}
    (params : SynthParams) (sr now bend : ℚ) (n : Int) (vel : ℚ)
    (hF : FreeReset l) :
    FreeReset (listModify i (populateVoice params sr now bend n vel) l) := by
  apply freeReset_modify hF
  intro w hw hact hrel
  obtain ⟨-, -, h3, -⟩ := populateVoice_fields params sr now bend n vel w
  rw [h3] at hact
  simp at hact

/-- The hard stop performed inside `findVoiceForNoteOn` preserves both
invariants of the post-allocation voice list. -/
theorem inv_hardStop_modify {st : Engine} {i : Nat}
    (hU : SoundingUnique st.voices) (hF : FreeReset st.voices) :
    SoundingUnique (listModify i (hardStopF st) st.voices) ∧
      FreeReset (listModify i (hardStopF st) st.voices) := by
  constructor
  · apply soundingUnique_modify hU
    intro w m hw hh
    rw [hardStopF, holdsB_stopVoice] at hh
    simp at hh
  · apply freeReset_modify hF
    intro w hw hact hrel
    obtain ⟨-, -, h3, h4, h5, h6⟩ :=
      stopVoice_reset st.currentParams st.sampleRate st.now w true
    exact ⟨h3, h4, h5, h6⟩

theorem noteOn_inv {st : Engine} (hInv : EngineInv st) (n : Int) (vel : ℚ) :
    EngineInv (noteOn st n vel) := by
  obtain ⟨hU, hF⟩ := hInv
  cases hres : findVoiceForNoteOn st n with
  | mk o vs =>
    cases o with
    | none =>
      have hvs : vs = st.voices := findVoiceForNoteOn_none hres
      have hgoal : (noteOn st n vel).voices = vs := by
        unfold noteOn; rw [hres]
      unfold EngineInv
      rw [hgoal, hvs]
      exact ⟨hU, hF⟩
    | some i =>
      have hgoal : (noteOn st n vel).voices =
          listModify i
            (populateVoice st.currentParams st.sampleRate st.now
              st.pitchBendExp n vel) vs := by
        unfold noteOn; rw [hres]
      unfold EngineInv
      rw [hgoal]
      have hcases := findVoiceForNoteOn_some_cases hres
      -- facts common to the three allocation outcomes
      have hmain : SoundingUnique vs ∧ FreeReset vs ∧
          (∀ (j : Nat) (w : Voice), j ≠ i → vs[j]? = some w →
            holdsB n w = false) := by
        rcases hcases with ⟨v, hv, hh, rfl⟩ | ⟨hnh, v, hv, hfree, rfl⟩ |
            ⟨hnh, v, hv, rfl⟩
        · obtain ⟨hU2, hF2⟩ := inv_hardStop_modify (i := i) hU hF
          refine ⟨hU2, hF2, ?_⟩
          intro j w hj hw
          rw [listModify_getElem_ne _ _ hj] at hw
          by_contra hhold
          have hhold2 : holdsB n w = true := by
            cases hx : holdsB n w
            · exact absurd hx hhold
            · rfl
          exact hj (hU n j i w v hw hv hhold2 hh)
        · refine ⟨hU, hF, ?_⟩
          intro j w hj hw
          exact hnh w (getElem?_mem hw)
        · obtain ⟨hU2, hF2⟩ := inv_hardStop_modify (i := i) hU hF
          refine ⟨hU2, hF2, ?_⟩
          intro j w hj hw
          rw [listModify_getElem_ne _ _ hj] at hw
          exact hnh w (getElem?_mem hw)
      obtain ⟨hUvs, hFvs, hnoh⟩ := hmain
      exact ⟨soundingUnique_after_populate _ _ _ _ _ _ hUvs hnoh,
        freeReset_populate _ _ _ _ _ _ hFvs⟩

theorem noteOff_inv {st : Engine} (hInv : EngineInv st) (n : Int) :
    EngineInv (noteOff st n) := by
  obtain ⟨hU, hF⟩ := hInv
  constructor
  · apply soundingUnique_map hU
    intro w m hh
    rw [holdsB_noteOffVoice] at hh
    exact hh
  · apply freeReset_map hF
    intro w hact hrel
    by_cases hm : holdsB n w = true
    · rw [noteOffVoice_matching _ _ _ _ _ hm] at hrel
      simp at hrel
    · exact noteOffVoice_not_matching _ _ _ _ _ (by
        cases hx : holdsB n w
        · rfl
        · exact absurd hx hm)

theorem cleanupCallback_cases (params : SynthParams) (sampleRate now : ℚ)
    (n : Int) (v : Voice) :
    ((v.isReleasing && v.note == some n) = true ∧
      cleanupCallback params sampleRate now n v
        = stopVoice params sampleRate now v false) ∨
    ((v.isReleasing && v.note == some n) = false ∧
      cleanupCallback params sampleRate now n v = v) := by
  cases hx : (v.isReleasing && v.note == some n)
  · exact Or.inr ⟨rfl, by unfold cleanupCallback; rw [hx]; simp⟩
  · exact Or.inl ⟨rfl, by unfold cleanupCallback; rw [hx]; simp⟩

theorem fireTimer_inv {st : Engine} (hInv : EngineInv st) (i : Nat) :
    EngineInv (fireTimer st i) := by
  obtain ⟨hU, hF⟩ := hInv
  cases hv : st.voices[i]? with
  | none =>
    have heq : fireTimer st i = st := by
      unfold fireTimer; rw [hv]
    rw [heq]
    exact ⟨hU, hF⟩
  | some v =>
    cases hts : v.scheduledStopTimeouts with
    | nil =>
      have heq : fireTimer st i = st := by
        unfold fireTimer
        simp only [hv, hts]
      rw [heq]
      exact ⟨hU, hF⟩
    | cons t ts =>
      have heq : (fireTimer st i).voices = listModify i
          (fun w =>
            cleanupCallback st.currentParams st.sampleRate st.now t.note
              { w with scheduledStopTimeouts := ts }) st.voices := by
        unfold fireTimer
        simp only [hv, hts]
      unfold EngineInv
      rw [heq]
      constructor
      · apply soundingUnique_modify hU
        intro w m hw hh
        have h2 : holdsB m { w with scheduledStopTimeouts := ts } = true :=
          holdsB_cleanupCallback m _ _ _ _ _ hh
        exact h2
      · apply freeReset_modify hF
        intro w hw hact hrel
        rcases cleanupCallback_cases st.currentParams st.sampleRate st.now
            t.note { w with scheduledStopTimeouts := ts } with
          ⟨-, hcc⟩ | ⟨-, hcc⟩
        · rw [hcc] at hact hrel ⊢
          obtain ⟨-, -, h3, h4, h5, h6⟩ :=
            stopVoice_reset st.currentParams st.sampleRate st.now
              { w with scheduledStopTimeouts := ts } false
          exact ⟨h3, h4, h5, h6⟩
        · rw [hcc] at hact hrel ⊢
          -- the voice is free, so FreeReset on the original list forces its
          -- pending-timer list to be empty, contradicting the pending timer
          have hvw : v = w := by
            rw [hv] at hw
            exact Option.some.inj hw
          have hwfree := hF i w hw hact hrel
          rw [hvw] at hts
          rw [hwfree.2.2.2] at hts
          simp at hts

theorem setPitchBend_inv {st : Engine} (hInv : EngineInv st) (b : ℚ) :
    EngineInv (setPitchBend st b) := by
  obtain ⟨hU, hF⟩ := hInv
  constructor
  · apply soundingUnique_map hU
    intro w m hh
    rw [holdsB_bendVoice] at hh
    exact hh
  · apply freeReset_map hF
    intro w hact hrel
    obtain ⟨-, h2, h3, -⟩ := bendVoice_fields st.currentParams
      (b * 2 / 12) w
    rw [h2] at hact
    rw [h3] at hrel
    exact bendVoice_free _ _ _ hact hrel

theorem step_inv {st : Engine} (hInv : EngineInv st) (e : Event) :
    EngineInv (step st e) := by
  cases e with
  | noteOnEv n vel => exact noteOn_inv hInv n vel
  | noteOffEv n => exact noteOff_inv hInv n
  | fireTimerEv i => exact fireTimer_inv hInv i
  | bendEv b => exact setPitchBend_inv hInv b
  | advanceEv dt => exact hInv

theorem run_inv (params : SynthParams) (sampleRate : ℚ)
    (evs : List Event) : EngineInv (run params sampleRate evs) := by
  unfold run
  have hbase := mkEngine_inv params sampleRate
  generalize mkEngine params sampleRate = st at hbase ⊢
  induction evs generalizing st with
  | nil => exact hbase
  | cons e evs ih => exact ih (step st e) (step_inv hbase e)

/-! ### Further small helpers -/

theorem bool_eq_false {b : Bool} (h : ¬b = true) : b = false := by
  cases b
  · rfl
  · exact absurd rfl h

theorem maxQ_pos_left {a : ℚ} (b : ℚ) (ha : 0 < a) : 0 < maxQ a b := by
  unfold maxQ
  split
  · exact lt_of_lt_of_le ha (by assumption)
  · exact ha

theorem findWithIdx_eq_none_of {α : Type} {p : α → Bool} {l : List α}
    (h : ∀ a ∈ l, p a = false) : findWithIdx p l = none := by
  cases hf : findWithIdx p l with
  | none => rfl
  | some c =>
    obtain ⟨i, a⟩ := c
    obtain ⟨hg, hp⟩ := findWithIdx_eq_some hf
    rw [h a (getElem?_mem hg)] at hp
    simp at hp

theorem stealOldest_eq_none_of {p : Voice → Bool} {l : List Voice}
    (h : ∀ v ∈ l, p v = false) : stealOldest p l = none := by
  cases hf : stealOldest p l with
  | none => rfl
  | some c =>
    obtain ⟨i, v⟩ := c
    obtain ⟨hg, hp, -⟩ := stealOldest_eq_some hf
    rw [h v (getElem?_mem hg)] at hp
    simp at hp

theorem soundingUnique_countP {l : List Voice} (hU : SoundingUnique l)
    (n : Int) : l.countP (holdsB n) ≤ 1 := by
  induction l with
  | nil => simp
  | cons v vs ih =>
    have htail : SoundingUnique vs := by
      intro m i j vi vj hgi hgj hhi hhj
      have := hU m (i + 1) (j + 1) vi vj (by simpa using hgi)
        (by simpa using hgj) hhi hhj
      omega
    rw [List.countP_cons]
    by_cases hv : holdsB n v = true
    · have hzero : vs.countP (holdsB n) = 0 := by
        rw [List.countP_eq_zero]
        intro w hw hwp
        obtain ⟨k, hk⟩ := List.mem_iff_getElem?.mp hw
        have := hU n 0 (k + 1) v w (by simp) (by simpa using hk) hv hwp
        omega
      rw [hzero, hv]
      simp
    · rw [bool_eq_false hv]
      simpa using ih htail

/-! ### Concrete fixtures used by witnesses and counterexamples -/

/-- An enabled oscillator descriptor at octave 0, no detune. -/
def oscEnabled : OscillatorParams :=
  { id := "osc2", waveform := "sawtooth", octave := 0, tune := 0,
    level := 1, enabled := true }

/-- A disabled oscillator descriptor. -/
def oscDisabled : OscillatorParams :=
  { id := "osc1", waveform := "sawtooth", octave := 0, tune := 0,
    level := 1, enabled := false }

/-- A representative parameter snapshot with one enabled oscillator. -/
def P0 : SynthParams :=
  { masterVolume := 0.7, glide := 0,
    oscillators := [oscEnabled],
    noise := { type := "white", level := 0, enabled := false },
    filter := { cutoff := 2000, resonance := 1, envelopeAmount := 0.5,
                keyboardTracking := 0.5, type := "lowpass" },
    ampEnvelope := { attack := 0.01, decay := 0.2, sustain := 0.8,
                     release := 0.3 },
    filterEnvelope := { attack := 0.05, decay := 0.3, sustain := 0.5,
                        release := 0.5 },
    lfo := { waveform := "triangle", rate := 5, pitchAmount := 0,
             filterAmount := 0, enabled := false } }

/-- A snapshot whose descriptor list has a disabled descriptor before the
enabled one (the configuration that breaks the pitch-bend descriptor
lookup). -/
def P2 : SynthParams := { P0 with oscillators := [oscDisabled, oscEnabled] }

/-- An engine state with an empty voice pool (zero polyphony). -/
def emptyEngine : Engine :=
  { voices := [], currentParams := P0, pitchBendExp := 0, now := 0,
    sampleRate := 44100 }

/-- Bend up a full two semitones, play note 60, then recentre the bend:
the engine state of the C2 counterexample scenario. -/
def stC2 : Engine :=
  setPitchBend (noteOn (setPitchBend (mkEngine P2 44100) 1) 60 100) 0

/-- Two seconds of clock, then note 60 at velocity 100: the engine state
of the C4 failing input. -/
def stC4 : Engine := run P0 44100 [Event.advanceEv 2, Event.noteOnEv 60 100]

/-- The engine after a single note-on of note 60 (used by several
witnesses). -/
def stOn : Engine := run P0 44100 [Event.noteOnEv 60 100]

/-! ### The claims -/

/-- C5: for every parameter, envelope, base value, peak value and sustain
proportion, `applyEnvelope` performs exactly this scheduling sequence
anchored at `now`: cancel from `now`, set the value to `base` at `now`,
linearly ramp to `peak` at `now + max(0.001, attack)`, then linearly ramp
to `sustainProportion * peak` at
`now + max(0.001, attack) + max(0.001, decay)`; no scheduled segment has
zero duration. -/
theorem c5_applyEnvelope_schedule (envelope : EnvelopeParams)
    (base peak sustainProportion now : ℚ) :
    applyEnvelope envelope base peak sustainProportion now =
      [ .cancelScheduled now,
        .setValue base now,
        .linearRamp peak (now + maxQ 0.001 envelope.attack),
        .linearRamp (sustainProportion * peak)
          (now + maxQ 0.001 envelope.attack + maxQ 0.001 envelope.decay) ] ∧
    now < now + maxQ 0.001 envelope.attack ∧
    now + maxQ 0.001 envelope.attack
      < now + maxQ 0.001 envelope.attack + maxQ 0.001 envelope.decay := by
  refine ⟨rfl, ?_, ?_⟩
  · have h1 : 0 < maxQ 0.001 envelope.attack :=
      maxQ_pos_left _ (by norm_num)
    linarith
  · have h2 : 0 < maxQ 0.001 envelope.decay :=
      maxQ_pos_left _ (by norm_num)
    linarith

/-- C8: with an empty voice pool, allocation returns none and `noteOn`
returns with the engine state unchanged (the only unmodelled effect of
`noteOn` before allocation is the fire-and-forget context resume). -/
theorem c8_empty_pool (st : Engine) (n : Int) (vel : ℚ)
    (h : st.voices = []) :
    findVoiceForNoteOn st n = (none, st.voices) ∧ noteOn st n vel = st := by
  have hlen : st.voices.length = 0 := by rw [h]; rfl
  have h1 : findVoiceForNoteOn st n = (none, st.voices) := by
    unfold findVoiceForNoteOn
    rw [if_pos hlen]
  refine ⟨h1, ?_⟩
  unfold noteOn
  rw [h1]

theorem c8_empty_pool_witness :
    findVoiceForNoteOn emptyEngine 60 = (none, emptyEngine.voices) ∧
      noteOn emptyEngine 60 100 = emptyEngine :=
  c8_empty_pool emptyEngine 60 100 rfl

/-- C9: `noteOff n` on an engine in which no voice holds `n` while active
or releasing is a no-op: the state (every voice field, every automation
log, every pending timer) is returned unchanged. -/
theorem c9_noteOff_noop (st : Engine) (n : Int)
    (h : ∀ v ∈ st.voices, holdsB n v = false) :
    noteOff st n = st := by
  unfold noteOff
  have hmap : st.voices.map
      (noteOffVoice st.currentParams st.sampleRate st.now n) = st.voices := by
    calc st.voices.map (noteOffVoice st.currentParams st.sampleRate st.now n)
        = st.voices.map id :=
          List.map_congr_left
            (fun v hv => noteOffVoice_not_matching _ _ _ _ _ (h v hv))
      _ = st.voices := List.map_id st.voices
  rw [hmap]

theorem c9_noteOff_noop_witness : noteOff stOn 61 = stOn :=
  c9_noteOff_noop stOn 61 (by decide)

/-- C4 (failing input): `dispose` hard-stops every voice, but the
identity-field clearing branch of `stopVoice` is skipped on a hard stop of
a voice whose note is non-null, so a voice sounding note 60 at velocity
100 (started at clock time 2) keeps `note = 60`, `velocity = 100` and
`startTime = 2` after `dispose` — only the two flags are cleared.  The
claimed clearing does happen on the soft (cleanup-timer) stop, shown by
the last three conjuncts. -/
theorem c4_dispose_keeps_identity_fields :
    ((dispose stC4).voices.headD (initVoice 0)).note = some 60 ∧
    ((dispose stC4).voices.headD (initVoice 0)).velocity = 100 ∧
    ((dispose stC4).voices.headD (initVoice 0)).startTime = 2 ∧
    ((dispose stC4).voices.headD (initVoice 0)).isActive = false ∧
    ((dispose stC4).voices.headD (initVoice 0)).isReleasing = false ∧
    (stopVoice P0 44100 2 (stC4.voices.headD (initVoice 0)) false).note
      = none ∧
    (stopVoice P0 44100 2 (stC4.voices.headD (initVoice 0)) false).velocity
      = 0 ∧
    (stopVoice P0 44100 2 (stC4.voices.headD (initVoice 0)) false).startTime
      = 0 := by
  decide

/-- C2 (failing input): with a disabled descriptor in front of the enabled
one, bend up two semitones, play note 60, then `setPitchBend 0`.  The
multiplier is reset to 1 (exponent 0), but the voice's only live
oscillator — built from the enabled descriptor (octave 0, tune 0) — keeps
the bent frequency exponent `-7/12` instead of returning to its unbent
tuned exponent `-3/4`: the handler's id-concatenation lookup fails, the
index fallback resolves the disabled descriptor at index 0, and the ramp
is skipped. -/
theorem c2_pitchBend_zero_keeps_bent_frequency :
    stC2.pitchBendExp = 0 ∧
    (stC2.voices.headD (initVoice 0)).note = some 60 ∧
    (stC2.voices.headD (initVoice 0)).isActive = true ∧
    (stC2.voices.headD (initVoice 0)).oscillators.map
      (fun c => c.freqExp) = [-7/12] ∧
    (stC2.voices.headD (initVoice 0)).oscillators.map
      (fun c => midiNoteToFrequencyExp (60 + c.builtFrom.octave * 12) +
        c.builtFrom.tune / 1200) = [-3/4] ∧
    (-7/12 : ℚ) ≠ -3/4 := by
  decide

/-- C1: for every note-on, voice allocation evaluates the fixed priority
order of `findVoiceForNoteOn` and returns the first match.  (1) A voice
holding the same note while active or releasing is hard-stopped and its
slot reused; (2) otherwise a voice that is neither active nor releasing is
used as is; (3) otherwise, among voices with
`isReleasing ∧ ¬isActive`, one with smallest `startTime` is hard-stopped
and reused; (4) otherwise, among voices with `isActive ∧ ¬isReleasing`,
one with smallest `startTime` is hard-stopped and reused; (5) otherwise,
among all non-free voices, one with smallest `startTime` is hard-stopped
and reused. -/
theorem c1_alloc_priority (st : Engine) (note : Int)
    (hne : st.voices.length ≠ 0) :
    ((∃ v ∈ st.voices, holdsB note v = true) →
      ∃ i v, st.voices[i]? = some v ∧ holdsB note v = true ∧
        findVoiceForNoteOn st note
          = (some i, listModify i (hardStopF st) st.voices)) ∧
    ((∀ v ∈ st.voices, holdsB note v = false) →
      (∃ v ∈ st.voices, freeB v = true) →
      ∃ i v, st.voices[i]? = some v ∧ freeB v = true ∧
        findVoiceForNoteOn st note = (some i, st.voices)) ∧
    ((∀ v ∈ st.voices, holdsB note v = false) →
      (∀ v ∈ st.voices, freeB v = false) →
      (∃ v ∈ st.voices, releasingOnlyB v = true) →
      ∃ i v, st.voices[i]? = some v ∧ releasingOnlyB v = true ∧
        (∀ w ∈ st.voices, releasingOnlyB w = true →
          v.startTime ≤ w.startTime) ∧
        findVoiceForNoteOn st note
          = (some i, listModify i (hardStopF st) st.voices)) ∧
    ((∀ v ∈ st.voices, holdsB note v = false) →
      (∀ v ∈ st.voices, freeB v = false) →
      (∀ v ∈ st.voices, releasingOnlyB v = false) →
      (∃ v ∈ st.voices, activeOnlyB v = true) →
      ∃ i v, st.voices[i]? = some v ∧ activeOnlyB v = true ∧
        (∀ w ∈ st.voices, activeOnlyB w = true →
          v.startTime ≤ w.startTime) ∧
        findVoiceForNoteOn st note
          = (some i, listModify i (hardStopF st) st.voices)) ∧
    ((∀ v ∈ st.voices, holdsB note v = false) →
      (∀ v ∈ st.voices, freeB v = false) →
      (∀ v ∈ st.voices, releasingOnlyB v = false) →
      (∀ v ∈ st.voices, activeOnlyB v = false) →
      (∃ v ∈ st.voices, nonFreeB v = true) →
      ∃ i v, st.voices[i]? = some v ∧ nonFreeB v = true ∧
        (∀ w ∈ st.voices, nonFreeB w = true →
          v.startTime ≤ w.startTime) ∧
        findVoiceForNoteOn st note
          = (some i, listModify i (hardStopF st) st.voices)) := by
  refine ⟨?_, ?_, ?_, ?_, ?_⟩
  · rintro ⟨v, hv, hp⟩
    obtain ⟨c, hc⟩ := findWithIdx_isSome_of_mem hv hp
    obtain ⟨i, w⟩ := c
    obtain ⟨hg, hpw⟩ := findWithIdx_eq_some hc
    refine ⟨i, w, hg, hpw, ?_⟩
    unfold findVoiceForNoteOn
    rw [if_neg hne, hc]
  · intro h1
    rintro ⟨v, hv, hp⟩
    have hf1 := findWithIdx_eq_none_of h1
    obtain ⟨c, hc⟩ := findWithIdx_isSome_of_mem hv hp
    obtain ⟨i, w⟩ := c
    obtain ⟨hg, hpw⟩ := findWithIdx_eq_some hc
    refine ⟨i, w, hg, hpw, ?_⟩
    unfold findVoiceForNoteOn
    rw [if_neg hne, hf1, hc]
  · intro h1 h2
    rintro ⟨v, hv, hp⟩
    have hf1 := findWithIdx_eq_none_of h1
    have hf2 := findWithIdx_eq_none_of h2
    obtain ⟨c, hc⟩ := stealOldest_isSome_of_mem hv hp
    obtain ⟨i, w⟩ := c
    obtain ⟨hg, hpw, hmin⟩ := stealOldest_eq_some hc
    refine ⟨i, w, hg, hpw, ?_, ?_⟩
    · intro u hu hpu
      obtain ⟨k, hk⟩ := List.mem_iff_getElem?.mp hu
      exact hmin k u hk hpu
    · unfold findVoiceForNoteOn
      rw [if_neg hne, hf1, hf2, hc]
  · intro h1 h2 h3
    rintro ⟨v, hv, hp⟩
    have hf1 := findWithIdx_eq_none_of h1
    have hf2 := findWithIdx_eq_none_of h2
    have hs3 := stealOldest_eq_none_of h3
    obtain ⟨c, hc⟩ := stealOldest_isSome_of_mem hv hp
    obtain ⟨i, w⟩ := c
    obtain ⟨hg, hpw, hmin⟩ := stealOldest_eq_some hc
    refine ⟨i, w, hg, hpw, ?_, ?_⟩
    · intro u hu hpu
      obtain ⟨k, hk⟩ := List.mem_iff_getElem?.mp hu
      exact hmin k u hk hpu
    · unfold findVoiceForNoteOn
      rw [if_neg hne, hf1, hf2, hs3, hc]
  · intro h1 h2 h3 h4
    rintro ⟨v, hv, hp⟩
    have hf1 := findWithIdx_eq_none_of h1
    have hf2 := findWithIdx_eq_none_of h2
    have hs3 := stealOldest_eq_none_of h3
    have hs4 := stealOldest_eq_none_of h4
    obtain ⟨c, hc⟩ := stealOldest_isSome_of_mem hv hp
    obtain ⟨i, w⟩ := c
    obtain ⟨hg, hpw, hmin⟩ := stealOldest_eq_some hc
    refine ⟨i, w, hg, hpw, ?_, ?_⟩
    · intro u hu hpu
      obtain ⟨k, hk⟩ := List.mem_iff_getElem?.mp hu
      exact hmin k u hk hpu
    · unfold findVoiceForNoteOn
      rw [if_neg hne, hf1, hf2, hs3, hs4, hc]

theorem c1_alloc_priority_witness :
    ∃ i v, stOn.voices[i]? = some v ∧ holdsB 60 v = true ∧
      findVoiceForNoteOn stOn 60
        = (some i, listModify i (hardStopF stOn) stOn.voices) :=
  (c1_alloc_priority stOn 60 (by decide)).1
    ⟨stOn.voices.headD (initVoice 0), by decide, by decide⟩

/-- C3: after any sequence of events from a freshly constructed engine, at
most one voice holds a given note value while active or releasing; and a
note-on for a note that is already sounding reuses the very slot that
holds it (the slot ends up active on that note) without raising the
sounding count for the note above 1. -/
theorem c3_at_most_one_sounding (params : SynthParams) (sampleRate : ℚ)
    (evs : List Event) (n : Int) :
    soundingCount (run params sampleRate evs) n ≤ 1 ∧
    (∀ (vel : ℚ) (i : Nat) (v : Voice),
      (run params sampleRate evs).voices[i]? = some v →
      holdsB n v = true →
      ∃ w, (noteOn (run params sampleRate evs) n vel).voices[i]? = some w ∧
        w.note = some n ∧ w.isActive = true ∧
        soundingCount (noteOn (run params sampleRate evs) n vel) n ≤ 1) := by
  obtain ⟨hU, hF⟩ := run_inv params sampleRate evs
  constructor
  · exact soundingUnique_countP hU n
  · intro vel i v hg hh
    have hlen : ¬((run params sampleRate evs).voices.length = 0) := by
      intro h0
      rw [List.length_eq_zero] at h0
      rw [h0] at hg
      simp at hg
    have hfw : findWithIdx (holdsB n) (run params sampleRate evs).voices
        = some (i, v) :=
      findWithIdx_eq_of_unique hg hh
        (fun j b hj hb => hU n j i b v hj hg hb hh)
    have hres : findVoiceForNoteOn (run params sampleRate evs) n
        = (some i, listModify i (hardStopF (run params sampleRate evs))
            (run params sampleRate evs).voices) := by
      unfold findVoiceForNoteOn
      rw [if_neg hlen, hfw]
    have hvoices : (noteOn (run params sampleRate evs) n vel).voices
        = listModify i
            (populateVoice (run params sampleRate evs).currentParams
              (run params sampleRate evs).sampleRate
              (run params sampleRate evs).now
              (run params sampleRate evs).pitchBendExp n vel)
            (listModify i (hardStopF (run params sampleRate evs))
              (run params sampleRate evs).voices) := by
      unfold noteOn
      rw [hres]
    refine ⟨populateVoice (run params sampleRate evs).currentParams
        (run params sampleRate evs).sampleRate
        (run params sampleRate evs).now
        (run params sampleRate evs).pitchBendExp n vel
        (hardStopF (run params sampleRate evs) v), ?_, ?_, ?_, ?_⟩
    · rw [hvoices, listModify_getElem_self, listModify_getElem_self, hg]
      rfl
    · exact (populateVoice_fields _ _ _ _ _ _ _).1
    · exact (populateVoice_fields _ _ _ _ _ _ _).2.2.1
    · have hInv2 := noteOn_inv ⟨hU, hF⟩ n vel
      exact soundingUnique_countP hInv2.1 n

theorem c3_at_most_one_sounding_witness :
    soundingCount (run P0 44100 [Event.noteOnEv 60 100]) 60 ≤ 1 ∧
    ∃ w, (noteOn (run P0 44100 [Event.noteOnEv 60 100]) 60 80).voices[0]?
        = some w ∧
      w.note = some 60 ∧ w.isActive = true ∧
      soundingCount (noteOn (run P0 44100 [Event.noteOnEv 60 100]) 60 80) 60
        ≤ 1 :=
  ⟨(c3_at_most_one_sounding P0 44100 [Event.noteOnEv 60 100] 60).1,
    (c3_at_most_one_sounding P0 44100 [Event.noteOnEv 60 100] 60).2 80 0
      ((run P0 44100 [Event.noteOnEv 60 100]).voices.headD (initVoice 0))
      (by decide) (by decide)⟩

/-- C10: in every reachable engine state, the voice returned by
`findVoiceForNoteOn` is, at the moment of return, in the fully reset
condition of a free voice: both flags false, empty oscillator component
list, no noise component, and no pending cleanup timers. -/
theorem c10_alloc_returns_reset (params : SynthParams) (sampleRate : ℚ)
    (evs : List Event) (note : Int) (i : Nat)
    (h : (findVoiceForNoteOn (run params sampleRate evs) note).1 = some i) :
    ∃ w, (findVoiceForNoteOn (run params sampleRate evs) note).2[i]?
        = some w ∧
      w.isActive = false ∧ w.isReleasing = false ∧ w.oscillators = [] ∧
      w.noiseNode = none ∧ w.noiseGainNode = none ∧
      w.scheduledStopTimeouts = [] := by
  obtain ⟨hU, hF⟩ := run_inv params sampleRate evs
  cases hres : findVoiceForNoteOn (run params sampleRate evs) note with
  | mk o vs =>
    have h2 : o = some i := by rw [hres] at h; exact h
    subst h2
    rcases findVoiceForNoteOn_some_cases hres with
      ⟨v, hv, hh, rfl⟩ | ⟨-, v, hv, hfree, rfl⟩ | ⟨-, v, hv, rfl⟩
    · refine ⟨hardStopF (run params sampleRate evs) v, ?_, ?_⟩
      · rw [listModify_getElem_self, hv]
        rfl
      · exact stopVoice_reset _ _ _ _ _
    · have hflags : v.isActive = false ∧ v.isReleasing = false := by
        unfold freeB at hfree
        rw [Bool.and_eq_true] at hfree
        exact ⟨by simpa using hfree.1, by simpa using hfree.2⟩
      obtain ⟨hres1, hres2, hres3, hres4⟩ :=
        hF i v hv hflags.1 hflags.2
      exact ⟨v, hv, hflags.1, hflags.2, hres1, hres2, hres3, hres4⟩
    · refine ⟨hardStopF (run params sampleRate evs) v, ?_, ?_⟩
      · rw [listModify_getElem_self, hv]
        rfl
      · exact stopVoice_reset _ _ _ _ _

theorem c10_alloc_returns_reset_witness :
    ∃ w, (findVoiceForNoteOn (run P0 44100 [Event.noteOnEv 60 100]) 60).2[0]?
        = some w ∧
      w.isActive = false ∧ w.isReleasing = false ∧ w.oscillators = [] ∧
      w.noiseNode = none ∧ w.noiseGainNode = none ∧
      w.scheduledStopTimeouts = [] :=
  c10_alloc_returns_reset P0 44100 [Event.noteOnEv 60 100] 60 0 (by decide)

/-- The filter target derivation exactly as worded in claim C7: base
cutoff = configured cutoff plus `(note - 60) * keyboardTracking * 20` when
keyboard tracking is positive, clamped to `[20, sampleRate / 2]`. -/
def specFilterBaseCutoff (params : SynthParams) (note : Int)
    (sampleRate : ℚ) : ℚ :=
  if 0 < params.filter.keyboardTracking then
    clampQ 20 (sampleRate / 2)
      (params.filter.cutoff +
        ((note : ℚ) - 60) * params.filter.keyboardTracking * 20)
  else params.filter.cutoff

theorem filterBaseCutoffFor_eq_spec (params : SynthParams) (note : Int)
    (sampleRate : ℚ) :
    filterBaseCutoffFor params note sampleRate
      = specFilterBaseCutoff params note sampleRate := by
  unfold filterBaseCutoffFor specFilterBaseCutoff
  rw [mul_assoc]

/-- C7: `noteOn` schedules onto the filter-frequency parameter, in order:
its initial value = the claim's base cutoff (configured cutoff shifted by
`(note - 60) * keyboardTracking * 20` when tracking is positive, clamped
to `[20, sampleRate / 2]`), the attack target
`clamp(base + envelopeAmount * 5000)`, and the decay target
`clamp(base + filterEnvelope.sustain * envelopeAmount * 5000)`. -/
theorem c7_filter_targets (st : Engine) (n : Int) (vel : ℚ) (i : Nat)
    (h : (findVoiceForNoteOn st n).1 = some i) :
    ∃ pre, ((noteOn st n vel).voices[i]?).map Voice.filterFreqEvents =
      some (pre ++
        [ .cancelScheduled st.now,
          .setValue (specFilterBaseCutoff st.currentParams n st.sampleRate)
            st.now,
          .linearRamp
            (clampQ 20 (st.sampleRate / 2)
              (specFilterBaseCutoff st.currentParams n st.sampleRate +
                st.currentParams.filter.envelopeAmount * 5000))
            (st.now + maxQ 0.001 st.currentParams.filterEnvelope.attack),
          .linearRamp
            (clampQ 20 (st.sampleRate / 2)
              (specFilterBaseCutoff st.currentParams n st.sampleRate +
                st.currentParams.filterEnvelope.sustain *
                  st.currentParams.filter.envelopeAmount * 5000))
            (st.now + maxQ 0.001 st.currentParams.filterEnvelope.attack +
              maxQ 0.001 st.currentParams.filterEnvelope.decay) ]) := by
  cases hres : findVoiceForNoteOn st n with
  | mk o vs =>
    have h2 : o = some i := by rw [hres] at h; exact h
    subst h2
    have hexists : ∃ u, vs[i]? = some u := by
      rcases findVoiceForNoteOn_some_cases hres with
        ⟨v, hv, -, rfl⟩ | ⟨-, v, hv, -, rfl⟩ | ⟨-, v, hv, rfl⟩
      · exact ⟨hardStopF st v, by rw [listModify_getElem_self, hv]; rfl⟩
      · exact ⟨v, hv⟩
      · exact ⟨hardStopF st v, by rw [listModify_getElem_self, hv]; rfl⟩
    obtain ⟨u, hu⟩ := hexists
    have hvoices : (noteOn st n vel).voices
        = listModify i
            (populateVoice st.currentParams st.sampleRate st.now
              st.pitchBendExp n vel) vs := by
      unfold noteOn
      rw [hres]
    refine ⟨u.filterFreqEvents, ?_⟩
    rw [hvoices, listModify_getElem_self, hu]
    simp only [Option.map_some', Option.some.injEq]
    have hevents := (populateVoice_fields st.currentParams st.sampleRate
      st.now st.pitchBendExp n vel u).2.2.2.2.2.2.2.2
    rw [hevents, filterBaseCutoffFor_eq_spec]
    rw [mul_assoc st.currentParams.filterEnvelope.sustain]

theorem c7_filter_targets_witness :
    ∃ pre, ((noteOn (mkEngine P0 44100) 60 100).voices[0]?).map
        Voice.filterFreqEvents =
      some (pre ++
        [ .cancelScheduled (mkEngine P0 44100).now,
          .setValue (specFilterBaseCutoff (mkEngine P0 44100).currentParams
            60 (mkEngine P0 44100).sampleRate) (mkEngine P0 44100).now,
          .linearRamp
            (clampQ 20 ((mkEngine P0 44100).sampleRate / 2)
              (specFilterBaseCutoff (mkEngine P0 44100).currentParams 60
                  (mkEngine P0 44100).sampleRate +
                (mkEngine P0 44100).currentParams.filter.envelopeAmount
                  * 5000))
            ((mkEngine P0 44100).now + maxQ 0.001
              (mkEngine P0 44100).currentParams.filterEnvelope.attack),
          .linearRamp
            (clampQ 20 ((mkEngine P0 44100).sampleRate / 2)
              (specFilterBaseCutoff (mkEngine P0 44100).currentParams 60
                  (mkEngine P0 44100).sampleRate +
                (mkEngine P0 44100).currentParams.filterEnvelope.sustain *
                  (mkEngine P0 44100).currentParams.filter.envelopeAmount *
                  5000))
            ((mkEngine P0 44100).now + maxQ 0.001
                (mkEngine P0 44100).currentParams.filterEnvelope.attack +
              maxQ 0.001
                (mkEngine P0 44100).currentParams.filterEnvelope.decay) ]) :=
  c7_filter_targets (mkEngine P0 44100) 60 100 0 (by decide)

/-- C6: for a voice sounding note `n`, `noteOff n` schedules every
generator of that voice to stop at
`now + max(ampRelease, filterRelease) + 0.05` seconds, appends a cleanup
timer set to fire after `max(ampRelease, filterRelease) + 0.1` seconds
(the source passes the delay to `setTimeout` in milliseconds), and the
timer's callback soft-stops (hard = false) its voice exactly when the
voice is still releasing and still holds note `n`. -/
theorem c6_noteOff_schedule (st : Engine) (n : Int) (i : Nat) (v : Voice)
    (hv : st.voices[i]? = some v) (hh : holdsB n v = true) :
    ∃ w, (noteOff st n).voices[i]? = some w ∧
      (∀ c ∈ w.oscillators, c.stopAt = some (st.now +
        maxQ st.currentParams.ampEnvelope.release
          st.currentParams.filterEnvelope.release + 0.05)) ∧
      (∀ nc, w.noiseNode = some nc → nc.stopAt = some (st.now +
        maxQ st.currentParams.ampEnvelope.release
          st.currentParams.filterEnvelope.release + 0.05)) ∧
      w.scheduledStopTimeouts = v.scheduledStopTimeouts ++
        [ { delayMs := (maxQ st.currentParams.ampEnvelope.release
              st.currentParams.filterEnvelope.release + 0.1) * 1000,
            note := n } ] ∧
      (∀ (params2 : SynthParams) (sr2 now2 : ℚ) (u : Voice),
        (u.isReleasing = true ∧ u.note = some n →
          cleanupCallback params2 sr2 now2 n u
            = stopVoice params2 sr2 now2 u false) ∧
        (¬(u.isReleasing = true ∧ u.note = some n) →
          cleanupCallback params2 sr2 now2 n u = u)) := by
  have hmap : (noteOff st n).voices[i]?
      = some (noteOffVoice st.currentParams st.sampleRate st.now n v) := by
    unfold noteOff
    simp only [List.getElem?_map, hv, Option.map_some']
  rw [noteOffVoice_matching _ _ _ _ _ hh] at hmap
  refine ⟨_, hmap, ?_, ?_, ?_, ?_⟩
  · intro c hc
    simp only [List.mem_map] at hc
    obtain ⟨c0, -, hc0⟩ := hc
    rw [← hc0]
  · intro nc hnc
    simp only at hnc
    cases hn0 : v.noiseNode with
    | none => rw [hn0] at hnc; simp at hnc
    | some nc0 =>
      rw [hn0] at hnc
      simp only [Option.map_some', Option.some.injEq] at hnc
      rw [← hnc]
  · rfl
  · intro params2 sr2 now2 u
    constructor
    · rintro ⟨hrel, hnote⟩
      unfold cleanupCallback
      rw [hrel, hnote]
      simp
    · intro hnc
      have hcond : (u.isReleasing && u.note == some n) = false := by
        by_cases h1 : u.isReleasing = true
        · have h2 : ¬(u.note = some n) := fun hx => hnc ⟨h1, hx⟩
          rw [h1]
          simp [h2]
        · rw [bool_eq_false h1]
          simp
      unfold cleanupCallback
      rw [hcond]
      simp

theorem c6_noteOff_schedule_witness :
    ∃ w, (noteOff stOn 60).voices[0]? = some w ∧
      (∀ c ∈ w.oscillators, c.stopAt = some (stOn.now +
        maxQ stOn.currentParams.ampEnvelope.release
          stOn.currentParams.filterEnvelope.release + 0.05)) ∧
      (∀ nc, w.noiseNode = some nc → nc.stopAt = some (stOn.now +
        maxQ stOn.currentParams.ampEnvelope.release
          stOn.currentParams.filterEnvelope.release + 0.05)) ∧
      w.scheduledStopTimeouts
        = (stOn.voices.headD (initVoice 0)).scheduledStopTimeouts ++
          [ { delayMs := (maxQ stOn.currentParams.ampEnvelope.release
                stOn.currentParams.filterEnvelope.release + 0.1) * 1000,
              note := 60 } ] ∧
      (∀ (params2 : SynthParams) (sr2 now2 : ℚ) (u : Voice),
        (u.isReleasing = true ∧ u.note = some 60 →
          cleanupCallback params2 sr2 now2 60 u
            = stopVoice params2 sr2 now2 u false) ∧
        (¬(u.isReleasing = true ∧ u.note = some 60) →
          cleanupCallback params2 sr2 now2 60 u = u)) :=
  c6_noteOff_schedule stOn 60 0 (stOn.voices.headD (initVoice 0))
    (by decide) (by decide)

end MiniMoog
